import Mathlib

/-!
Verification of the alloy-blend optimizer core
(`src/aluminum_mix_optimizer.py`, class `AlloyOptimizer`).

The embedding below translates the constraint-building code of
`AlloyOptimizer.optimize_alloy` (objective, single mass-balance equality,
composition-band rows, stock rows, optional scarcity-cap rows, variable
bounds), its interpretation of the LP solver's answer, and the solution
interpreter `AlloyOptimizer.calculate_final_composition`, into exact
rational arithmetic.  Python's `float` values are modelled by `ℚ`; the
external `scipy.optimize.linprog` call is modelled as a black box whose
answer is a `SolverOutcome` value, constrained only by the soundness /
completeness predicates `OutcomeSound` and `OutcomeComplete` that express
the solver's documented contract.  Python's stable `list.sort(key=...)`
is modelled by the stable insertion sort `sortStocks`.
-/

/-- The fixed element set `self.elements = ['Al', 'Cu', 'Mg', 'Zn']`. -/
inductive Elem : Type where
  | Al : Elem
  | Cu : Elem
  | Mg : Elem
  | Zn : Elem

/-- `self.elements`, in source order. -/
def elements : List Elem := [Elem.Al, Elem.Cu, Elem.Mg, Elem.Zn]

/-- One entry of `materials_data`: a raw-material lot record with its
elemental composition (percent), unit price and stock. -/
structure Material : Type where
  element_content : Elem → ℚ
  price : ℚ
  stock : ℚ

/-- `order_requirements`: required total weight plus target composition. -/
structure Order : Type where
  total_weight : ℚ
  element_content : Elem → ℚ

/-- Dot product of a coefficient row with the decision vector (the action of
one constraint row of `A_eq`/`A_ub` on a solution vector `x`). -/
def dot : List ℚ → List ℚ → ℚ
  | a :: as, b :: bs => a * b + dot as bs
  | _, _ => 0

/-- Python's `enumerate`, starting at `k`. -/
def idxPairs {α : Type} : ℕ → List α → List (ℕ × α)
  | _, [] => []
  | k, a :: t => (k, a) :: idxPairs (k + 1) t

/-- Objective coefficients: `c = [material['price'] for material in materials_data]`. -/
def objective (mats : List Material) : List ℚ :=
  mats.map Material.price

/-- The single equality row `A_eq.append([1] * n_materials)`. -/
def A_eq (mats : List Material) : List (List ℚ) :=
  [List.replicate mats.length 1]

/-- The equality right-hand side `b_eq.append(order_requirements['total_weight'])`. -/
def b_eq (order : Order) : List ℚ :=
  [order.total_weight]

/-- The per-element composition-band inequality rows, paired with their
right-hand sides, exactly as the loop `for element in self.elements` builds
them: for each element first the lower-bound row
`-coeffs ≤ -target_min * total_w`, then the upper-bound row
`coeffs ≤ target_max * total_w`. -/
def compRows (mats : List Material) (order : Order) : List (List ℚ × ℚ) :=
  elements.flatMap fun element =>
    let target_min := (order.element_content element - 0.5) / 100
    let target_max := (order.element_content element + 0.5) / 100
    let coeffs := mats.map fun material => material.element_content element / 100
    [(coeffs.map fun c => -c, (-target_min) * order.total_weight),
     (coeffs, target_max * order.total_weight)]

/-- The stock-capacity rows `[0]*i + [1] + [0]*(n_materials-1-i) ≤ material['stock']`,
one per lot, in input order. -/
def stockRows (mats : List Material) : List (List ℚ × ℚ) :=
  (idxPairs 0 mats).map fun p =>
    (List.replicate p.1 (0 : ℚ) ++ [1] ++ List.replicate (mats.length - 1 - p.1) 0,
     p.2.stock)

/-- The pairs `stocks = [(i, material['stock']) for i, material in enumerate(materials_data)]`. -/
def stockPairs (mats : List Material) : List (ℕ × ℚ) :=
  (idxPairs 0 mats).map fun p => (p.1, p.2.stock)

/-- Stable insertion of a pair into a list sorted by the stock component:
the new pair goes in front of the first entry whose stock it does not
exceed, so entries with equal stock keep their original relative order. -/
def insertStable (a : ℕ × ℚ) : List (ℕ × ℚ) → List (ℕ × ℚ)
  | [] => [a]
  | b :: l => if a.2 ≤ b.2 then a :: b :: l else b :: insertStable a l

/-- Stable sort by ascending stock, modelling `stocks.sort(key=lambda x: x[1])`
(Python's sort is stable: ties keep input order). -/
def sortStocks : List (ℕ × ℚ) → List (ℕ × ℚ)
  | [] => []
  | a :: l => insertStable a (sortStocks l)

/-- The scarcity-cap rows: when at least two lots exist, one row
`constraint[idx] = 1 ≤ total_weight * 0.3` for each of the first two entries
of the stock-sorted pair list; otherwise none. -/
def capRows (mats : List Material) (order : Order) : List (List ℚ × ℚ) :=
  let stocks := sortStocks (stockPairs mats)
  if 2 ≤ stocks.length then
    (stocks.take 2).map fun p =>
      ((List.replicate mats.length (0 : ℚ)).set p.1 1, order.total_weight * 0.3)
  else []

/-- All inequality rows with their right-hand sides, in the order the source
appends them: composition bands, then stock rows, then (when
`max_ratio_constraint` is set) the scarcity-cap rows. -/
def ubPairs (mats : List Material) (order : Order) (max_ratio_constraint : Bool) :
    List (List ℚ × ℚ) :=
  compRows mats order ++
    (stockRows mats ++ (if max_ratio_constraint then capRows mats order else []))

/-- The inequality coefficient matrix `A_ub`. -/
def A_ub (mats : List Material) (order : Order) (max_ratio_constraint : Bool) :
    List (List ℚ) :=
  (ubPairs mats order max_ratio_constraint).map Prod.fst

/-- The inequality right-hand sides `b_ub`. -/
def b_ub (mats : List Material) (order : Order) (max_ratio_constraint : Bool) :
    List ℚ :=
  (ubPairs mats order max_ratio_constraint).map Prod.snd

/-- Variable bounds `bounds = [(0, None) for _ in range(n_materials)]`. -/
def bounds (n : ℕ) : List (ℚ × Option ℚ) :=
  (List.range n).map fun _ => (0, none)

/-- A vector `x` satisfies every constraint `optimize_alloy` hands to
`linprog`: one entry per lot, the lower bounds `x ≥ 0`, the equality rows
and the inequality rows. -/
def Feasible (mats : List Material) (order : Order) (max_ratio_constraint : Bool)
    (x : List ℚ) : Prop :=
  x.length = mats.length ∧
  (∀ a ∈ x, 0 ≤ a) ∧
  (∀ p ∈ (A_eq mats).zip (b_eq order), dot p.1 x = p.2) ∧
  (∀ p ∈ ubPairs mats order max_ratio_constraint, dot p.1 x ≤ p.2)

/-- The LP instance built by `optimize_alloy` admits some feasible point. -/
def lpFeasible (mats : List Material) (order : Order)
    (max_ratio_constraint : Bool) : Prop :=
  ∃ x, Feasible mats order max_ratio_constraint x

/-- The value `scipy.optimize.linprog` returns: success flag, solution
vector `x`, objective value `fun`, diagnostic `message`. -/
structure LinprogRes : Type where
  success : Bool
  x : List ℚ
  objVal : ℚ
  message : String

/-- What the solver call inside the `try` block does: either return a
`LinprogRes`, or raise an exception carrying a message. -/
inductive SolverOutcome : Type where
  | res : LinprogRes → SolverOutcome
  | exn : String → SolverOutcome

/-- The dictionary `optimize_alloy` returns: `success`, and (on success)
`total_cost` and `material_weights`, plus a `message`. -/
structure OptResult : Type where
  success : Bool
  total_cost : Option ℚ
  material_weights : Option (List ℚ)
  message : String

/-- `AlloyOptimizer.optimize_alloy`: build the LP from `materials_data` and
`order_requirements`, hand it to the solver, and map the solver's outcome
(result or raised exception) to the returned dictionary. -/
def optimize_alloy (mats : List Material) (order : Order)
    (max_ratio_constraint : Bool) (outcome : SolverOutcome) : OptResult :=
  match outcome with
  | SolverOutcome.res r =>
      if r.success then
        { success := true
          total_cost := some r.objVal
          material_weights := some r.x
          message := "优化成功" }
      else
        { success := false
          total_cost := none
          material_weights := none
          message := "无法找到可行解: " ++ r.message }
  | SolverOutcome.exn s =>
      { success := false
        total_cost := none
        material_weights := none
        message := "求解过程中出错: " ++ s }

/-- Soundness half of the solver's contract for the instance built from the
given inputs: a returned success carries a vector satisfying every
constraint handed to the solver. -/
def OutcomeSound (mats : List Material) (order : Order)
    (max_ratio_constraint : Bool) : SolverOutcome → Prop
  | SolverOutcome.res r =>
      r.success = true → Feasible mats order max_ratio_constraint r.x
  | SolverOutcome.exn _ => True

/-- Completeness half of the solver's contract: on a feasible instance the
solver neither raises nor reports infeasibility. -/
def OutcomeComplete (mats : List Material) (order : Order)
    (max_ratio_constraint : Bool) (outcome : SolverOutcome) : Prop :=
  lpFeasible mats order max_ratio_constraint →
    ∃ r, outcome = SolverOutcome.res r ∧ r.success = true

/-- `AlloyOptimizer.calculate_final_composition`: `None` when the weights
sum to zero, otherwise the per-element mass accumulated over the lots,
rescaled to percent of the total assigned mass. -/
def calculate_final_composition (mats : List Material) (weights : List ℚ) :
    Option (Elem → ℚ) :=
  let total_weight := weights.sum
  if total_weight = 0 then none
  else
    let final_comp := (mats.zip weights).foldl
      (fun fc mw => fun element =>
        fc element + mw.2 * mw.1.element_content element / 100)
      (fun _ => 0)
    some fun element => final_comp element / total_weight * 100

/-- Spec-side formula for the mass of one element in the blend:
`Σ weights_i * composition_i[e] / 100` (section 4.2 of the spec). -/
def specElemMass (mats : List Material) (weights : List ℚ) (e : Elem) : ℚ :=
  ((mats.zip weights).map fun mw => mw.2 * mw.1.element_content e / 100).sum

/-! ## Arithmetic helper lemmas -/

theorem dot_nil_right (l : List ℚ) : dot l [] = 0 := by
  cases l <;> rfl

theorem dot_replicate_one (x : List ℚ) :
    dot (List.replicate x.length 1) x = x.sum := by
  induction x with
  | nil => rfl
  | cons a t ih =>
      simp only [List.length_cons, List.replicate_succ, dot, one_mul,
        List.sum_cons, ih]

theorem dot_map_neg (l x : List ℚ) :
    dot (l.map fun c => -c) x = -dot l x := by
  induction l generalizing x with
  | nil => simp [dot]
  | cons a t ih =>
      cases x with
      | nil => simp [dot_nil_right]
      | cons b xs => simp only [List.map_cons, dot, ih]; ring

theorem dot_comp_coeffs (mats : List Material) (x : List ℚ) (e : Elem) :
    dot (mats.map fun m => m.element_content e / 100) x = specElemMass mats x e := by
  induction mats generalizing x with
  | nil => simp [dot, specElemMass]
  | cons m t ih =>
      cases x with
      | nil => simp [dot_nil_right, specElemMass]
      | cons a xs =>
          simp only [List.map_cons, dot, specElemMass, List.zip_cons_cons,
            List.sum_cons] at ih ⊢
          rw [ih]; ring

theorem foldl_final_comp (mats : List Material) (weights : List ℚ)
    (g : Elem → ℚ) (e : Elem) :
    ((mats.zip weights).foldl
      (fun fc mw => fun element =>
        fc element + mw.2 * mw.1.element_content element / 100) g) e
      = g e + specElemMass mats weights e := by
  induction mats generalizing weights g with
  | nil => simp [specElemMass]
  | cons m t ih =>
      cases weights with
      | nil => simp [specElemMass]
      | cons w ws =>
          simp only [List.zip_cons_cons, List.foldl_cons, specElemMass,
            List.map_cons, List.sum_cons] at ih ⊢
          rw [ih]; ring

theorem calculate_final_composition_of_sum (mats : List Material)
    (weights : List ℚ) (h : weights.sum ≠ 0) :
    calculate_final_composition mats weights
      = some fun e => specElemMass mats weights e / weights.sum * 100 := by
  simp only [calculate_final_composition, if_neg h]
  congr 1
  funext e
  rw [foldl_final_comp]
  ring_nf

/-! ## Composition-band core -/

theorem compRows_mem_lower (mats : List Material) (order : Order) (e : Elem)
    (he : e ∈ elements) :
    ((mats.map fun m => m.element_content e / 100).map (fun c => -c),
      (-((order.element_content e - 0.5) / 100)) * order.total_weight)
      ∈ compRows mats order := by
  rw [compRows, List.mem_flatMap]
  exact ⟨e, he, by simp⟩

theorem compRows_mem_upper (mats : List Material) (order : Order) (e : Elem)
    (he : e ∈ elements) :
    (mats.map fun m => m.element_content e / 100,
      ((order.element_content e + 0.5) / 100) * order.total_weight)
      ∈ compRows mats order := by
  rw [compRows, List.mem_flatMap]
  exact ⟨e, he, by simp⟩

theorem elem_mem_elements (e : Elem) : e ∈ elements := by
  cases e <;> simp [elements]

/-- Core of the composition-band property: a vector of one nonnegative
weight per lot that meets the mass-balance equality and every
composition-band row yields a blend whose per-element composition is within
half a percentage point of the target. -/
theorem band_of_rows (mats : List Material) (order : Order) (x : List ℚ)
    (hT : 0 < order.total_weight)
    (hlen : x.length = mats.length)
    (heq : ∀ p ∈ (A_eq mats).zip (b_eq order), dot p.1 x = p.2)
    (hub : ∀ p ∈ compRows mats order, dot p.1 x ≤ p.2) :
    x.sum = order.total_weight ∧
    ∃ f, calculate_final_composition mats x = some f ∧
      ∀ e, |f e - order.element_content e| ≤ 0.5 := by
  have hsum : x.sum = order.total_weight := by
    have h := heq (List.replicate mats.length 1, order.total_weight)
      (by simp [A_eq, b_eq])
    rw [← hlen] at h
    rw [← dot_replicate_one x, h]
  have hne : x.sum ≠ 0 := by rw [hsum]; exact ne_of_gt hT
  refine ⟨hsum, ?_⟩
  rw [calculate_final_composition_of_sum mats x hne]
  refine ⟨_, rfl, fun e => ?_⟩
  have hupper := hub _ (compRows_mem_upper mats order e (elem_mem_elements e))
  have hlower := hub _ (compRows_mem_lower mats order e (elem_mem_elements e))
  rw [dot_map_neg] at hlower
  rw [dot_comp_coeffs] at hupper hlower
  set S := specElemMass mats x e with hS
  set t := order.element_content e with ht
  set T := order.total_weight with hT'
  have hup : S ≤ (t + 0.5) / 100 * T := hupper
  have hlo : (t - 0.5) / 100 * T ≤ S := by nlinarith [hlower]
  rw [hsum]
  rw [abs_le]
  constructor
  · have h1 : (t - 0.5) * T ≤ S * 100 := by nlinarith [hlo]
    have h2 : t - 0.5 ≤ S * 100 / T := (le_div_iff₀ hT).mpr h1
    rw [div_mul_eq_mul_div]
    linarith
  · have h1 : S * 100 ≤ (t + 0.5) * T := by nlinarith [hup]
    have h2 : S * 100 / T ≤ t + 0.5 := (div_le_iff₀ hT).mpr h1
    rw [div_mul_eq_mul_div]
    linarith

/-! ## Stable sort and enumeration lemmas -/

/-- Strict ordering that a stable ascending sort by stock realises on pairs
with pairwise-distinct indices: smaller stock first, ties by index. -/
def pairLt (a b : ℕ × ℚ) : Prop :=
  a.2 < b.2 ∨ (a.2 = b.2 ∧ a.1 < b.1)

theorem pairLt_trans {a b c : ℕ × ℚ} (h1 : pairLt a b) (h2 : pairLt b c) :
    pairLt a c := by
  rcases h1 with h1 | ⟨h1e, h1i⟩ <;> rcases h2 with h2 | ⟨h2e, h2i⟩
  · exact Or.inl (h1.trans h2)
  · exact Or.inl (h2e ▸ h1)
  · exact Or.inl (h1e ▸ h2)
  · exact Or.inr ⟨h1e.trans h2e, h1i.trans h2i⟩

theorem pairLt_le {a b : ℕ × ℚ} (h : pairLt a b) : a.2 ≤ b.2 := by
  rcases h with h | ⟨he, _⟩
  · exact le_of_lt h
  · exact le_of_eq he

theorem insertStable_perm (a : ℕ × ℚ) (l : List (ℕ × ℚ)) :
    (insertStable a l).Perm (a :: l) := by
  induction l with
  | nil => exact List.Perm.refl _
  | cons b t ih =>
      by_cases h : a.2 ≤ b.2
      · rw [insertStable, if_pos h]
      · rw [insertStable, if_neg h]
        exact (ih.cons b).trans (List.Perm.swap a b t)

theorem mem_insertStable {x a : ℕ × ℚ} {l : List (ℕ × ℚ)} :
    x ∈ insertStable a l ↔ x = a ∨ x ∈ l := by
  rw [(insertStable_perm a l).mem_iff, List.mem_cons]

theorem pairwise_insertStable (a : ℕ × ℚ) (l : List (ℕ × ℚ))
    (hl : l.Pairwise pairLt) (ha : ∀ e ∈ l, a.1 < e.1) :
    (insertStable a l).Pairwise pairLt := by
  induction l with
  | nil => simp [insertStable, List.pairwise_cons]
  | cons b t ih =>
      rw [List.pairwise_cons] at hl
      obtain ⟨hb, ht⟩ := hl
      by_cases h : a.2 ≤ b.2
      · rw [insertStable, if_pos h, List.pairwise_cons]
        refine ⟨?_, List.pairwise_cons.mpr ⟨hb, ht⟩⟩
        intro e he
        rcases List.mem_cons.mp he with rfl | he'
        · rcases lt_or_eq_of_le h with hlt | heq
          · exact Or.inl hlt
          · exact Or.inr ⟨heq, ha e (List.mem_cons_self e t)⟩
        · have hbe := pairLt_le (hb e he')
          rcases lt_or_eq_of_le (le_trans h hbe) with hlt | heq
          · exact Or.inl hlt
          · exact Or.inr ⟨heq, ha e (List.mem_cons_of_mem b he')⟩
      · rw [insertStable, if_neg h, List.pairwise_cons]
        refine ⟨?_, ih ht fun e he => ha e (List.mem_cons_of_mem b he)⟩
        intro e he
        rcases mem_insertStable.mp he with rfl | he'
        · exact Or.inl (lt_of_not_le h)
        · exact hb e he'

theorem sortStocks_perm (l : List (ℕ × ℚ)) : (sortStocks l).Perm l := by
  induction l with
  | nil => exact List.Perm.refl _
  | cons a t ih =>
      exact (insertStable_perm a (sortStocks t)).trans (ih.cons a)

theorem pairwise_sortStocks (l : List (ℕ × ℚ))
    (h : l.Pairwise fun a b => a.1 < b.1) :
    (sortStocks l).Pairwise pairLt := by
  induction l with
  | nil => simp [sortStocks]
  | cons a t ih =>
      rw [List.pairwise_cons] at h
      refine pairwise_insertStable a (sortStocks t) (ih h.2) ?_
      intro e he
      exact h.1 e ((sortStocks_perm t).mem_iff.mp he)

theorem idxPairs_length {α : Type} (k : ℕ) (l : List α) :
    (idxPairs k l).length = l.length := by
  induction l generalizing k with
  | nil => rfl
  | cons a t ih => simp [idxPairs, ih]

theorem idxPairs_fst_le {α : Type} (k : ℕ) (l : List α) :
    ∀ p ∈ idxPairs k l, k ≤ p.1 := by
  induction l generalizing k with
  | nil => simp [idxPairs]
  | cons a t ih =>
      intro p hp
      rcases List.mem_cons.mp hp with rfl | hp'
      · exact le_refl k
      · exact le_trans (Nat.le_succ k) (ih (k + 1) p hp')

theorem idxPairs_pairwise {α : Type} (k : ℕ) (l : List α) :
    (idxPairs k l).Pairwise fun a b => a.1 < b.1 := by
  induction l generalizing k with
  | nil => simp [idxPairs]
  | cons a t ih =>
      rw [idxPairs, List.pairwise_cons]
      exact ⟨fun p hp => lt_of_lt_of_le (Nat.lt_succ_self k)
        (idxPairs_fst_le (k + 1) t p hp), ih (k + 1)⟩

theorem mem_idxPairs {α : Type} (d : α) (l : List α) (k : ℕ) (p : ℕ × α)
    (hp : p ∈ idxPairs k l) :
    k ≤ p.1 ∧ p.1 - k < l.length ∧ p.2 = l.getD (p.1 - k) d := by
  induction l generalizing k with
  | nil => simp [idxPairs] at hp
  | cons a t ih =>
      rcases List.mem_cons.mp hp with rfl | hp'
      · simp
      · obtain ⟨h1, h2, h3⟩ := ih (k + 1) hp'
        have hk : k ≤ p.1 := le_trans (Nat.le_succ k) h1
        refine ⟨hk, ?_, ?_⟩
        · simp only [List.length_cons]; omega
        · have : p.1 - k = (p.1 - (k + 1)) + 1 := by omega
          rw [this, List.getD_cons_succ, h3]

theorem idxPairs_mem {α : Type} (d : α) (l : List α) (k i : ℕ)
    (hi : i < l.length) : (k + i, l.getD i d) ∈ idxPairs k l := by
  induction l generalizing k i with
  | nil => simp at hi
  | cons a t ih =>
      cases i with
      | zero => simp [idxPairs]
      | succ j =>
          rw [idxPairs, List.getD_cons_succ]
          refine List.mem_cons_of_mem _ ?_
          have : k + (j + 1) = (k + 1) + j := by omega
          rw [this]
          exact ih (k + 1) j (by simpa using hi)

/-- The stock of lot `i` (0 outside the list), the quantity the scarcity-cap
selection compares. -/
def stockAt (mats : List Material) (i : ℕ) : ℚ :=
  (mats.map Material.stock).getD i 0

theorem stockPairs_length (mats : List Material) :
    (stockPairs mats).length = mats.length := by
  simp [stockPairs, idxPairs_length]

theorem stockPairs_pairwise (mats : List Material) :
    (stockPairs mats).Pairwise fun a b => a.1 < b.1 := by
  rw [stockPairs, List.pairwise_map]
  exact idxPairs_pairwise 0 mats

theorem mem_stockPairs {mats : List Material} {p : ℕ × ℚ}
    (hp : p ∈ stockPairs mats) :
    p.1 < mats.length ∧ p.2 = stockAt mats p.1 := by
  rw [stockPairs, List.mem_map] at hp
  obtain ⟨q, hq, rfl⟩ := hp
  obtain ⟨-, hlt, hval⟩ :=
    mem_idxPairs (Material.mk (fun _ => 0) 0 0) mats 0 q hq
  simp only [Nat.sub_zero] at hlt hval
  refine ⟨hlt, ?_⟩
  have hmap : stockAt mats q.1
      = (mats.getD q.1 (Material.mk (fun _ => 0) 0 0)).stock := by
    simp only [stockAt]
    rw [List.getD_eq_getElem _ _ (by simpa using hlt),
      List.getD_eq_getElem _ _ hlt, List.getElem_map]
  simp only [hmap, hval]

theorem stockPairs_mem (mats : List Material) (i : ℕ) (hi : i < mats.length) :
    (i, stockAt mats i) ∈ stockPairs mats := by
  have h := idxPairs_mem (Material.mk (fun _ => 0) 0 0) mats 0 i hi
  rw [stockPairs, List.mem_map]
  refine ⟨(i, mats.getD i (Material.mk (fun _ => 0) 0 0)), by simpa using h, ?_⟩
  have hmap : stockAt mats i
      = (mats.getD i (Material.mk (fun _ => 0) 0 0)).stock := by
    simp only [stockAt]
    rw [List.getD_eq_getElem _ _ (by simpa using hi),
      List.getD_eq_getElem _ _ hi, List.getElem_map]
  simp only [hmap]

/-- Characterisation of the scarcity-cap rows when at least two lots exist:
exactly two rows, each a unit row bounded by `total_weight * 0.3`, whose
indices `j` and `k` are the two lowest-stock lots in stable order: `j` is
the earliest lot of globally minimal stock, and `k` the earliest lot of
minimal stock among the others. -/
theorem capRows_char (mats : List Material) (order : Order)
    (h2 : 2 ≤ mats.length) :
    ∃ j k, j < mats.length ∧ k < mats.length ∧ j ≠ k ∧
      capRows mats order =
        [((List.replicate mats.length (0 : ℚ)).set j 1, order.total_weight * 0.3),
         ((List.replicate mats.length (0 : ℚ)).set k 1, order.total_weight * 0.3)] ∧
      (∀ i < mats.length, stockAt mats j ≤ stockAt mats i) ∧
      (∀ i < j, stockAt mats j < stockAt mats i) ∧
      (∀ i < mats.length, i ≠ j → stockAt mats k ≤ stockAt mats i) ∧
      (∀ i < k, i ≠ j → stockAt mats k < stockAt mats i) := by
  have hperm := sortStocks_perm (stockPairs mats)
  have hlen : (sortStocks (stockPairs mats)).length = mats.length := by
    rw [hperm.length_eq, stockPairs_length]
  have hpw := pairwise_sortStocks (stockPairs mats) (stockPairs_pairwise mats)
  rcases hss : sortStocks (stockPairs mats) with - | ⟨p, - | ⟨q, rest⟩⟩
  · rw [hss] at hlen; simp at hlen; omega
  · rw [hss] at hlen; simp at hlen; omega
  · rw [hss] at hperm hpw hlen
    rw [List.pairwise_cons] at hpw
    obtain ⟨hpfirst, hpw'⟩ := hpw
    rw [List.pairwise_cons] at hpw'
    obtain ⟨hqfirst, -⟩ := hpw'
    have hpmem := mem_stockPairs (hperm.mem_iff.mp (List.mem_cons_self p _))
    have hqmem := mem_stockPairs (hperm.mem_iff.mp
      (List.mem_cons_of_mem p (List.mem_cons_self q rest)))
    have hmem_ss : ∀ i < mats.length,
        (i, stockAt mats i) = p ∨ (i, stockAt mats i) = q ∨
          (i, stockAt mats i) ∈ rest := by
      intro i hi
      have := hperm.mem_iff.mpr (stockPairs_mem mats i hi)
      simpa [List.mem_cons] using this
    refine ⟨p.1, q.1, hpmem.1, hqmem.1, ?_, ?_, ?_, ?_, ?_, ?_⟩
    · intro heq
      have hpq := hpfirst q (List.mem_cons_self q rest)
      have h2eq : p.2 = q.2 := by rw [hpmem.2, hqmem.2, heq]
      rcases hpq with hlt | ⟨-, hi⟩
      · rw [h2eq] at hlt; exact lt_irrefl _ hlt
      · rw [heq] at hi; exact lt_irrefl _ hi
    · simp only [capRows]
      rw [hss]
      have hcond : 2 ≤ (p :: q :: rest).length := by simp
      rw [if_pos hcond]
      simp [List.take_cons]
    · intro i hi
      rw [← hpmem.2]
      rcases hmem_ss i hi with he | he | he
      · have hes : stockAt mats i = p.2 := congrArg Prod.snd he
        exact le_of_eq hes.symm
      · have hes : stockAt mats i = q.2 := congrArg Prod.snd he
        rw [hes]
        exact pairLt_le (hpfirst q (List.mem_cons_self q rest))
      · exact pairLt_le (hpfirst _ (List.mem_cons_of_mem q he))
    · intro i hi
      rw [← hpmem.2]
      have hi' : i < mats.length := lt_trans hi hpmem.1
      rcases hmem_ss i hi' with he | he | he
      · have hei : i = p.1 := congrArg Prod.fst he
        exact absurd hei (by omega)
      · have hei : i = q.1 := congrArg Prod.fst he
        have hes : stockAt mats i = q.2 := congrArg Prod.snd he
        rcases hpfirst q (List.mem_cons_self q rest) with hlt | ⟨-, hidx⟩
        · rw [hes]; exact hlt
        · exact absurd hidx (by omega)
      · rcases hpfirst _ (List.mem_cons_of_mem q he) with hlt | ⟨-, hidx⟩
        · exact hlt
        · have hidx' : p.1 < i := hidx
          exact absurd hidx' (by omega)
    · intro i hi hne
      rw [← hqmem.2]
      rcases hmem_ss i hi with he | he | he
      · exact absurd (congrArg Prod.fst he) hne
      · have hes : stockAt mats i = q.2 := congrArg Prod.snd he
        exact le_of_eq hes.symm
      · exact pairLt_le (hqfirst _ he)
    · intro i hi hne
      rw [← hqmem.2]
      have hi' : i < mats.length := lt_trans hi hqmem.1
      rcases hmem_ss i hi' with he | he | he
      · exact absurd (congrArg Prod.fst he) hne
      · have hei : i = q.1 := congrArg Prod.fst he
        exact absurd hei (by omega)
      · rcases hqfirst _ he with hlt | ⟨-, hidx⟩
        · exact hlt
        · have hidx' : q.1 < i := hidx
          exact absurd hidx' (by omega)

/-! ## Infeasibility helpers -/

/-- With exactly two lots and the scarcity cap on, both decision variables
are capped at `0.3 * total_weight` while their sum must equal
`total_weight`, so no vector satisfies the built constraints. -/
theorem two_lot_cap_infeasible (mats : List Material) (order : Order)
    (x : List ℚ) (h2 : mats.length = 2) (hT : 0 < order.total_weight) :
    ¬ Feasible mats order true x := by
  rintro ⟨hlen, -, heq, hub⟩
  rw [h2] at hlen
  rcases x with - | ⟨a, - | ⟨b, - | ⟨c, t⟩⟩⟩
  · simp at hlen
  · simp at hlen
  · obtain ⟨j, k, hj, hk, hjk, hrows, -⟩ := capRows_char mats order (by omega)
    have hsum : a + b = order.total_weight := by
      have h := heq (List.replicate mats.length 1, order.total_weight)
        (by simp [A_eq, b_eq])
      rw [h2] at h
      simpa [dot, List.replicate] using h
    have hcap : ∀ r ∈ capRows mats order, dot r.1 [a, b] ≤ r.2 := by
      intro r hr
      refine hub r ?_
      simp only [ubPairs, List.mem_append, if_pos]
      exact Or.inr (Or.inr hr)
    have hrowj := hcap _ (by rw [hrows]; exact List.mem_cons_self _ _)
    have hrowk := hcap _
      (by rw [hrows]; exact List.mem_cons_of_mem _ (List.mem_cons_self _ _))
    rw [h2] at hj hk hrowj hrowk
    have hcase : (j = 0 ∧ k = 1) ∨ (j = 1 ∧ k = 0) := by omega
    rcases hcase with ⟨rfl, rfl⟩ | ⟨rfl, rfl⟩
    · norm_num [List.replicate, dot] at hrowj hrowk
      linarith
    · norm_num [List.replicate, dot] at hrowj hrowk
      linarith
  · simp at hlen

/-- A single lot of stock 10 cannot meet a 100-unit mass balance: the stock
row and the equality row contradict each other. -/
theorem single_lot_stock_infeasible (m : Material) (order : Order)
    (cap : Bool) (x : List ℚ) (hs : m.stock = 10)
    (hT : order.total_weight = 100) :
    ¬ Feasible [m] order cap x := by
  rintro ⟨hlen, -, heq, hub⟩
  rcases x with - | ⟨a, - | ⟨b, t⟩⟩
  · simp at hlen
  · have hsum : a = 100 := by
      have h := heq (List.replicate 1 1, order.total_weight)
        (by simp [A_eq, b_eq])
      rw [hT] at h
      simpa [dot, List.replicate] using h
    have hrow : (([1] : List ℚ), m.stock) ∈ ubPairs [m] order cap := by
      have hsr : stockRows [m] = [(([1] : List ℚ), m.stock)] := by
        simp [stockRows, idxPairs]
      simp only [ubPairs, List.mem_append, hsr]
      exact Or.inr (Or.inl (List.mem_singleton.mpr rfl))
    have hub' := hub _ hrow
    rw [hs] at hub'
    simp only [dot] at hub'
    rw [hsum] at hub'
    norm_num at hub'
  · simp at hlen

/-- Interpretation of a sound solver outcome on an infeasible instance:
the returned dictionary has `success = False`. -/
theorem success_false_of_infeasible (mats : List Material) (order : Order)
    (cap : Bool) (h : ∀ x, ¬ Feasible mats order cap x)
    (outcome : SolverOutcome) (hsnd : OutcomeSound mats order cap outcome) :
    (optimize_alloy mats order cap outcome).success = false := by
  cases outcome with
  | res r =>
      cases hr : r.success with
      | false => simp [optimize_alloy, hr]
      | true => exact absurd (hsnd hr) (h r.x)
  | exn s => simp [optimize_alloy]

/-! ## Concrete data for the spec's scenarios -/

/-- Lot A of the spec's concrete scenario (the `易拉罐` preset):
Al 97.5, Cu 0.1, Mg 1.0, Zn 1.0, price 15, stock 5000. -/
def lotA : Material where
  element_content := fun e => match e with
    | Elem.Al => 97.5
    | Elem.Cu => 0.1
    | Elem.Mg => 1.0
    | Elem.Zn => 1.0
  price := 15
  stock := 5000

/-- Lot B of the spec's concrete scenario (the `线缆铝芯` preset):
Al 99.0, Cu 0.3, Mg 0.3, Zn 0.2, price 18, stock 5000. -/
def lotB : Material where
  element_content := fun e => match e with
    | Elem.Al => 99.0
    | Elem.Cu => 0.3
    | Elem.Mg => 0.3
    | Elem.Zn => 0.2
  price := 18
  stock := 5000

/-- The spec's concrete order: total weight 1000, targets
Al 98, Cu 0.2, Mg 0.5, Zn 0.5. -/
def demoOrder : Order where
  total_weight := 1000
  element_content := fun e => match e with
    | Elem.Al => 98
    | Elem.Cu => 0.2
    | Elem.Mg => 0.5
    | Elem.Zn => 0.5

/-- A low-stock lot used to exercise the scarcity-cap selection. -/
def scarceLot : Material where
  element_content := fun _ => 0
  price := 20
  stock := 300

/-- The single lot of the spec's infeasibility test: stock 10. -/
def tinyLot : Material where
  element_content := fun _ => 0
  price := 1
  stock := 10

/-- The order of the spec's infeasibility test: total weight 100. -/
def bigOrder : Order where
  total_weight := 100
  element_content := fun _ => 0

/-! ## Claim theorems -/

/-- C1: for every lots list, every order with positive total weight, and
every nonnegative solution vector (one entry per lot) satisfying the
all-ones mass-balance equality row and every per-element composition-band
inequality row built by `optimize_alloy`, the composition returned by
`calculate_final_composition` deviates from each element's target by at
most 0.5 percentage points (exactly, in rational arithmetic, so also up to
any numerical tolerance). -/
theorem optimize_alloy_composition_band (mats : List Material) (order : Order)
    (x : List ℚ) (hT : 0 < order.total_weight)
    (hlen : x.length = mats.length) (hpos : ∀ a ∈ x, 0 ≤ a)
    (heq : ∀ p ∈ (A_eq mats).zip (b_eq order), dot p.1 x = p.2)
    (hub : ∀ p ∈ compRows mats order, dot p.1 x ≤ p.2) :
    ∃ f, calculate_final_composition mats x = some f ∧
      ∀ e, |f e - order.element_content e| ≤ 0.5 :=
  (band_of_rows mats order x hT hlen heq hub).2

/-- C1 witness: the band theorem instantiated on the spec's two-lot
scenario with the solution vector `[500, 500]`. -/
theorem optimize_alloy_composition_band_witness :
    (0 : ℚ) < demoOrder.total_weight ∧
    ∃ f, calculate_final_composition [lotA, lotB] [500, 500] = some f ∧
      ∀ e, |f e - demoOrder.element_content e| ≤ 0.5 :=
  ⟨by norm_num [demoOrder],
   optimize_alloy_composition_band [lotA, lotB] demoOrder [500, 500]
    (by norm_num [demoOrder])
    (by norm_num)
    (by intro a ha; fin_cases ha <;> norm_num)
    (by
      intro p hp
      simp only [A_eq, b_eq, demoOrder] at hp
      fin_cases hp
      norm_num [dot, List.replicate])
    (by
      intro p hp
      simp only [compRows, elements, lotA, lotB, demoOrder, List.flatMap_cons,
        List.flatMap_nil, List.map_cons, List.map_nil, List.append_nil,
        List.cons_append, List.nil_append] at hp
      fin_cases hp <;> norm_num [dot])⟩

/-- C2: with the scarcity cap enabled and at least two lots, `optimize_alloy`
adds exactly two cap rows `x_i ≤ total_weight * 0.3`, at the two
lowest-stock indices chosen as a stable ascending sort on stock does
(`j` the earliest index of globally minimal stock, `k` the earliest index of
minimal stock among the rest); with fewer than two lots, no cap row. -/
theorem optimize_alloy_scarcity_cap (mats : List Material) (order : Order) :
    (2 ≤ mats.length →
      ∃ j k, j < mats.length ∧ k < mats.length ∧ j ≠ k ∧
        capRows mats order =
          [((List.replicate mats.length (0 : ℚ)).set j 1, order.total_weight * 0.3),
           ((List.replicate mats.length (0 : ℚ)).set k 1, order.total_weight * 0.3)] ∧
        (∀ i < mats.length, stockAt mats j ≤ stockAt mats i) ∧
        (∀ i < j, stockAt mats j < stockAt mats i) ∧
        (∀ i < mats.length, i ≠ j → stockAt mats k ≤ stockAt mats i) ∧
        (∀ i < k, i ≠ j → stockAt mats k < stockAt mats i)) ∧
    (mats.length < 2 → capRows mats order = []) := by
  refine ⟨capRows_char mats order, ?_⟩
  intro hlt
  have hlen : (sortStocks (stockPairs mats)).length < 2 := by
    rw [(sortStocks_perm (stockPairs mats)).length_eq, stockPairs_length]
    exact hlt
  simp only [capRows]
  rw [if_neg (by omega)]

/-- C2 witness: the cap-row characterisation instantiated on a three-lot
input whose two scarce lots are tied on stock. -/
theorem optimize_alloy_scarcity_cap_witness :
    ∃ j k, j < ([lotA, scarceLot, scarceLot] : List Material).length ∧
      k < ([lotA, scarceLot, scarceLot] : List Material).length ∧ j ≠ k ∧
      capRows [lotA, scarceLot, scarceLot] demoOrder =
        [((List.replicate ([lotA, scarceLot, scarceLot] : List Material).length (0 : ℚ)).set j 1,
          demoOrder.total_weight * 0.3),
         ((List.replicate ([lotA, scarceLot, scarceLot] : List Material).length (0 : ℚ)).set k 1,
          demoOrder.total_weight * 0.3)] ∧
      (∀ i < ([lotA, scarceLot, scarceLot] : List Material).length,
        stockAt [lotA, scarceLot, scarceLot] j ≤ stockAt [lotA, scarceLot, scarceLot] i) ∧
      (∀ i < j,
        stockAt [lotA, scarceLot, scarceLot] j < stockAt [lotA, scarceLot, scarceLot] i) ∧
      (∀ i < ([lotA, scarceLot, scarceLot] : List Material).length, i ≠ j →
        stockAt [lotA, scarceLot, scarceLot] k ≤ stockAt [lotA, scarceLot, scarceLot] i) ∧
      (∀ i < k, i ≠ j →
        stockAt [lotA, scarceLot, scarceLot] k < stockAt [lotA, scarceLot, scarceLot] i) :=
  (optimize_alloy_scarcity_cap [lotA, scarceLot, scarceLot] demoOrder).1 (by norm_num)

/-- C3: with exactly two lots, the scarcity cap on, and a positive order
weight, no vector satisfies the constraints built by `optimize_alloy`
(both variables are capped at 0.3 of the total while summing to the total),
so any sound solver outcome is interpreted as `success = False`. -/
theorem two_lot_cap_always_infeasible (mats : List Material) (order : Order)
    (h2 : mats.length = 2) (hT : 0 < order.total_weight) :
    (∀ x, ¬ Feasible mats order true x) ∧
    (∀ outcome, OutcomeSound mats order true outcome →
      (optimize_alloy mats order true outcome).success = false) := by
  refine ⟨fun x => two_lot_cap_infeasible mats order x h2 hT, ?_⟩
  exact success_false_of_infeasible mats order true
    (fun x => two_lot_cap_infeasible mats order x h2 hT)

/-- C3 witness: the two-lot infeasibility theorem instantiated on the
spec's concrete two-lot scenario. -/
theorem two_lot_cap_always_infeasible_witness :
    (¬ Feasible [lotA, lotB] demoOrder true [500, 500]) ∧
    (optimize_alloy [lotA, lotB] demoOrder true
      (SolverOutcome.exn "numerical failure")).success = false :=
  ⟨(two_lot_cap_always_infeasible [lotA, lotB] demoOrder rfl
      (by norm_num [demoOrder])).1 [500, 500],
   (two_lot_cap_always_infeasible [lotA, lotB] demoOrder rfl
      (by norm_num [demoOrder])).2 (SolverOutcome.exn "numerical failure") trivial⟩

/-- C4 counterexample: on the spec's concrete two-lot scenario the LP built
with the scarcity-cap argument at its default value (`True`) has no
feasible point at all, so no sound solver can return `success = True` —
the scenario's expected outcome is unreachable for the code as written. -/
theorem demo_scenario_default_cap_infeasible :
    ¬ lpFeasible [lotA, lotB] demoOrder true := by
  rintro ⟨x, hx⟩
  exact two_lot_cap_infeasible [lotA, lotB] demoOrder x rfl
    (by norm_num [demoOrder]) hx

/-- C4 (amended): on the spec's concrete two-lot scenario with the
scarcity cap disabled, the LP is feasible, every feasible vector has
weights summing to exactly 1000 with every element within half a
percentage point of target, and a sound and complete solver outcome is
interpreted as `success = True`. -/
theorem demo_scenario_no_cap_succeeds :
    lpFeasible [lotA, lotB] demoOrder false ∧
    (∀ x, Feasible [lotA, lotB] demoOrder false x →
      x.sum = 1000 ∧
      ∃ f, calculate_final_composition [lotA, lotB] x = some f ∧
        ∀ e, |f e - demoOrder.element_content e| ≤ 0.5) ∧
    (∀ outcome, OutcomeSound [lotA, lotB] demoOrder false outcome →
      OutcomeComplete [lotA, lotB] demoOrder false outcome →
      (optimize_alloy [lotA, lotB] demoOrder false outcome).success = true) := by
  have hfeas : Feasible [lotA, lotB] demoOrder false [500, 500] := by
    refine ⟨by norm_num, ?_, ?_, ?_⟩
    · intro a ha
      fin_cases ha <;> norm_num
    · intro p hp
      simp only [A_eq, b_eq, demoOrder] at hp
      fin_cases hp
      norm_num [dot, List.replicate]
    · intro p hp
      simp only [ubPairs, compRows, stockRows, idxPairs, elements, lotA, lotB,
        demoOrder, Bool.false_eq_true, if_false, List.flatMap_cons,
        List.flatMap_nil, List.map_cons, List.map_nil, List.append_nil,
        List.cons_append, List.nil_append] at hp
      fin_cases hp <;> norm_num [dot, List.replicate]
  refine ⟨⟨[500, 500], hfeas⟩, ?_, ?_⟩
  · intro x hx
    obtain ⟨hlen, -, heqc, hubc⟩ := hx
    have hband := band_of_rows [lotA, lotB] demoOrder x
      (by norm_num [demoOrder]) hlen heqc
      (fun p hp => hubc p
        (by simp only [ubPairs, List.mem_append]; exact Or.inl hp))
    exact ⟨hband.1, hband.2⟩
  · intro outcome hsnd hcomp
    obtain ⟨r, rfl, hrs⟩ := hcomp ⟨[500, 500], hfeas⟩
    simp [optimize_alloy, hrs]

/-- C5: for every input, `optimize_alloy` returns a value of one of two
fully-populated shapes: success (with cost and weights) or failure (with
`None` cost and weights); solver infeasibility and a solver-raised
exception produce the same failure shape, distinguished only by the
message text. -/
theorem optimize_alloy_result_shape (mats : List Material) (order : Order)
    (cap : Bool) :
    (∀ lr : LinprogRes, lr.success = true →
      optimize_alloy mats order cap (SolverOutcome.res lr) =
        { success := true, total_cost := some lr.objVal,
          material_weights := some lr.x, message := "优化成功" }) ∧
    (∀ lr : LinprogRes, lr.success = false →
      optimize_alloy mats order cap (SolverOutcome.res lr) =
        { success := false, total_cost := none, material_weights := none,
          message := "无法找到可行解: " ++ lr.message }) ∧
    (∀ s : String, optimize_alloy mats order cap (SolverOutcome.exn s) =
      { success := false, total_cost := none, material_weights := none,
        message := "求解过程中出错: " ++ s }) ∧
    (∀ outcome,
      ((optimize_alloy mats order cap outcome).success = true ∧
        ((optimize_alloy mats order cap outcome).total_cost).isSome = true ∧
        ((optimize_alloy mats order cap outcome).material_weights).isSome = true) ∨
      ((optimize_alloy mats order cap outcome).success = false ∧
        (optimize_alloy mats order cap outcome).total_cost = none ∧
        (optimize_alloy mats order cap outcome).material_weights = none)) := by
  refine ⟨?_, ?_, ?_, ?_⟩
  · intro lr h; simp [optimize_alloy, h]
  · intro lr h; simp [optimize_alloy, h]
  · intro s; simp [optimize_alloy]
  · intro outcome
    cases outcome with
    | res r =>
        cases hr : r.success with
        | true => left; simp [optimize_alloy, hr]
        | false => right; simp [optimize_alloy, hr]
    | exn s => right; simp [optimize_alloy]

/-- C6: for aligned lots and weights with nonzero total,
`calculate_final_composition` returns for each element exactly
`100 * (Σ weights_i * composition_i[e] / 100) / (Σ weights_i)`. -/
theorem calculate_final_composition_formula (mats : List Material)
    (weights : List ℚ) (hlen : weights.length = mats.length)
    (hsum : weights.sum ≠ 0) :
    ∃ f, calculate_final_composition mats weights = some f ∧
      ∀ e, f e = 100 * specElemMass mats weights e / weights.sum := by
  rw [calculate_final_composition_of_sum mats weights hsum]
  refine ⟨_, rfl, fun e => ?_⟩
  ring

/-- C6 witness: the formula instantiated on the spec's two-lot scenario
with weights `[500, 500]`. -/
theorem calculate_final_composition_formula_witness :
    (([500, 500] : List ℚ).sum ≠ 0) ∧
    ∃ f, calculate_final_composition [lotA, lotB] [500, 500] = some f ∧
      ∀ e, f e = 100 * specElemMass [lotA, lotB] [500, 500] e /
        (([500, 500] : List ℚ)).sum :=
  ⟨by norm_num,
   calculate_final_composition_formula [lotA, lotB] [500, 500]
    (by norm_num) (by norm_num)⟩

/-- C7: the builder emits exactly one equality row — all-ones coefficients
with right-hand side the order's total weight — every variable bound is
`(0, None)` (nonnegative, unbounded above), and consequently every vector
satisfying the built constraints has weights summing to exactly the
order's total weight. -/
theorem optimize_alloy_mass_balance (mats : List Material) (order : Order)
    (cap : Bool) :
    A_eq mats = [List.replicate mats.length 1] ∧
    b_eq order = [order.total_weight] ∧
    (bounds mats.length).length = mats.length ∧
    (∀ b ∈ bounds mats.length, b = (0, none)) ∧
    ∀ x, Feasible mats order cap x → x.sum = order.total_weight := by
  refine ⟨rfl, rfl, by simp [bounds], ?_, ?_⟩
  · intro b hb
    rw [bounds, List.mem_map] at hb
    obtain ⟨-, -, rfl⟩ := hb
    rfl
  · intro x hx
    obtain ⟨hlen, -, heq, -⟩ := hx
    have h := heq (List.replicate mats.length 1, order.total_weight)
      (by simp [A_eq, b_eq])
    rw [← hlen] at h
    rw [← dot_replicate_one x]
    exact h

/-- C8: when the weights sum to zero, `calculate_final_composition`
performs no division and signals the undefined composition distinctly by
returning `None`. -/
theorem calculate_final_composition_zero_sum (mats : List Material)
    (weights : List ℚ) (h : weights.sum = 0) :
    calculate_final_composition mats weights = none := by
  simp [calculate_final_composition, h]

/-- C8 witness: a weight vector summing to zero yields `None`. -/
theorem calculate_final_composition_zero_sum_witness :
    (([1, -1] : List ℚ).sum = 0) ∧
    calculate_final_composition [lotA, lotB] [1, -1] = none :=
  ⟨by norm_num,
   calculate_final_composition_zero_sum [lotA, lotB] [1, -1] (by norm_num)⟩

/-- C9: a single lot with stock 10 against an order of total weight 100
makes the built constraints (stock row `x ≤ 10`, equality row `x = 100`)
unsatisfiable, and any sound solver outcome is interpreted as
`success = False`. -/
theorem single_lot_insufficient (m : Material) (order : Order) (cap : Bool)
    (hs : m.stock = 10) (hT : order.total_weight = 100) :
    (∀ x, ¬ Feasible [m] order cap x) ∧
    (∀ outcome, OutcomeSound [m] order cap outcome →
      (optimize_alloy [m] order cap outcome).success = false) := by
  refine ⟨fun x => single_lot_stock_infeasible m order cap x hs hT, ?_⟩
  exact success_false_of_infeasible [m] order cap
    (fun x => single_lot_stock_infeasible m order cap x hs hT)

/-- C9 witness: the theorem instantiated on a concrete lot of stock 10 and
an order of weight 100. -/
theorem single_lot_insufficient_witness :
    (¬ Feasible [tinyLot] bigOrder true [100]) ∧
    (optimize_alloy [tinyLot] bigOrder true
      (SolverOutcome.exn "solver crashed")).success = false :=
  ⟨(single_lot_insufficient tinyLot bigOrder true rfl rfl).1 [100],
   (single_lot_insufficient tinyLot bigOrder true rfl rfl).2
    (SolverOutcome.exn "solver crashed") trivial⟩
